import Mathlib

/-!
Shallow embedding of the enja-ai-talk LINE chat-bot pipeline.

The repository contains several near-duplicate webhook implementations
(Edward and Rachel personas).  Strings are modelled as `List Char`
(JavaScript strings are sequences of code units; every string operation
used by the sources — slice, trim, regex match, template concatenation —
is positional, so `List Char` is a faithful carrier).

The three regular expressions used by the reply parsers are embedded by
direct translation of the backtracking semantics of a JavaScript
`String.match` call for each concrete pattern:

* pattern A, used by index.js createEdwardReply and the variants in
  unnamed/part_000 (second half), part_001 and part_002:
    EN: \s* ( [\s\S]*? ) \nJP:
  leftmost match; greedy whitespace; lazy capture up to a literal
  newline-JP-colon delimiter.  `enScanStrict` below.
* pattern B, used by unnamed/part_000 createRachelReply (first half):
    EN: \s* ( [\s\S]*? ) (?:JP:|$)
  as above but the delimiter is JP: or end of input.  `enScanLoose`.
* pattern C, used by all parsers:
    JP: \s* ( [\s\S]* )
  first JP: occurrence, greedy whitespace, capture to end.  `jpScan`.

Side-effecting handler code is embedded as a pure function from the
inbound message and the oracle results of the external calls to the
ordered list of effects (`Act`) the handler performs.
-/

namespace EnjaTalk

/-- Whitespace class used by the JavaScript \s escape and by trim, for the
characters that can occur in the strings the sources manipulate. -/
def isWs (c : Char) : Bool :=
  c == ' ' || c == '\n' || c == '\t' || c == '\r'

/-- Characters of the literal EN: tag. -/
def enTagL : List Char := ['E', 'N', ':']

/-- Characters of the literal JP: tag. -/
def jpTagL : List Char := ['J', 'P', ':']

/-- Characters of the newline-prefixed JP: delimiter of pattern A. -/
def nlJpL : List Char := '\n' :: jpTagL

/-- Substring test: does pat occur (contiguously) anywhere in the list. -/
def containsSub (pat : List Char) : List Char → Bool
  | [] => pat.isPrefixOf []
  | c :: cs => pat.isPrefixOf (c :: cs) || containsSub pat cs

/-- Index of the first occurrence of pat, scanning left to right, as the
regex engine does when searching for a match start. -/
def firstOcc (pat : List Char) : List Char → Option Nat
  | [] => if pat.isPrefixOf [] then some 0 else none
  | c :: cs =>
      if pat.isPrefixOf (c :: cs) then some 0
      else (firstOcc pat cs).map (· + 1)

/-- Length of the maximal whitespace prefix (what a greedy \s* consumes). -/
def wsLen (s : List Char) : Nat := (s.takeWhile isWs).length

/-- Backtracking loop for pattern A after the EN: tag: the greedy \s* first
consumes k characters (k starts at the maximal whitespace run and
decreases on failure); for each k the lazy capture group grows until the
delimiter pat is found, i.e. the capture ends at the first occurrence of
pat at or after position k. -/
def enLoop (pat rest : List Char) : Nat → Option (List Char)
  | 0 => (firstOcc pat rest).map (fun c => rest.take c)
  | k + 1 =>
      match firstOcc pat (rest.drop (k + 1)) with
      | some c => some ((rest.drop (k + 1)).take c)
      | none => enLoop pat rest k

/-- Pattern A: leftmost EN: position from which a newline-JP: delimiter can
still be found; returns the capture group (the english text). -/
def enScanStrict : List Char → Option (List Char)
  | [] => none
  | c :: cs =>
      if enTagL.isPrefixOf (c :: cs) then
        match enLoop nlJpL ((c :: cs).drop 3) (wsLen ((c :: cs).drop 3)) with
        | some cap => some cap
        | none => enScanStrict cs
      else enScanStrict cs

/-- Pattern B: at the leftmost EN: position a match always exists because
of the end-of-input alternative, so the greedy \s* never backtracks: the
capture runs from the end of the whitespace to the first JP: occurrence,
or to the end of the input when there is none. -/
def enScanLoose : List Char → Option (List Char)
  | [] => none
  | c :: cs =>
      if enTagL.isPrefixOf (c :: cs) then
        some (match firstOcc jpTagL (((c :: cs).drop 3).dropWhile isWs) with
          | some k => (((c :: cs).drop 3).dropWhile isWs).take k
          | none => ((c :: cs).drop 3).dropWhile isWs)
      else enScanLoose cs

/-- Pattern C: everything after the first JP: occurrence, with the greedy
\s* stripping the leading whitespace of the capture. -/
def jpScan : List Char → Option (List Char)
  | [] => none
  | c :: cs =>
      if jpTagL.isPrefixOf (c :: cs) then
        some (((c :: cs).drop 3).dropWhile isWs)
      else jpScan cs

/-- Right-side whitespace strip. -/
def rdropWs (s : List Char) : List Char := (s.reverse.dropWhile isWs).reverse

/-- Model of the JavaScript String.prototype.trim call. -/
def trimL (s : List Char) : List Char := rdropWs (s.dropWhile isWs)

/-- Fallback japanese text baked into the index.js Edward parser. -/
def edwardJpFallback : List Char := "（日本語訳の抽出に失敗しました）".toList

/-- Fallback japanese text substituted by the part_000 Rachel handler at
reply-assembly time. -/
def rachelJpFallback : List Char := "（日本語訳の生成に失敗しました）".toList

/-- Parser of index.js createEdwardReply (lines 98-104): pattern A for the
english field with the whole trimmed text as fallback, pattern C for the
japanese field with a fixed fallback string. -/
def createEdwardReplyParse (fullText : List Char) : List Char × List Char :=
  ((match enScanStrict fullText with
    | some cap => trimL cap
    | none => trimL fullText),
   (match jpScan fullText with
    | some cap => trimL cap
    | none => edwardJpFallback))

/-- Parser of unnamed/part_000 createRachelReply (lines 107-113): pattern B
for the english field with the empty string as fallback, pattern C for the
japanese field with the empty string as fallback. -/
def createRachelReplyParse (fullText : List Char) : List Char × List Char :=
  ((match enScanLoose fullText with
    | some cap => trimL cap
    | none => []),
   (match jpScan fullText with
    | some cap => trimL cap
    | none => []))

/-- Parser of the remaining variants (part_000 second half, part_001,
part_002 second half): pattern A with whole-text fallback for english,
pattern C with empty fallback for japanese. -/
def strictParse (fullText : List Char) : List Char × List Char :=
  ((match enScanStrict fullText with
    | some cap => trimL cap
    | none => trimL fullText),
   (match jpScan fullText with
    | some cap => trimL cap
    | none => []))

/-- Role column of a persisted conversation turn. -/
inductive Role
  | user
  | assistant
deriving DecidableEq

/-- Text segments and the audio attachment of a LINE reply payload. -/
inductive Segment
  | text (s : List Char)
  | audio
deriving DecidableEq

/-- Observable effects a handler performs, in program order: history-store
writes and reads, the generation call, the speech call with the exact text
passed to it, the storage upload, the platform content fetch, the
speech-to-text call, and the outbound reply with its segments. -/
inductive Act
  | save (r : Role) (content : List Char)
  | readHistory
  | genCall (userText : List Char)
  | ttsCall (input : List Char)
  | uploadCall
  | fetchContent
  | sttCall
  | reply (segs : List Segment)
deriving DecidableEq

/-- Model of transcribeAudio (index.js lines 145-161 and part_000 lines
156-172): the whole body is wrapped in try/catch returning the empty
string, and an absent transcript field is mapped to the empty string by
the logical-or default; the oracle argument is the outcome of the
upstream speech-to-text call. -/
def transcribeAudio (api : Except Unit (Option (List Char))) : List Char :=
  match api with
  | Except.error _ => []
  | Except.ok none => []
  | Except.ok (some t) => t

/-- Text actually passed to the speech model by synthesizeEdwardVoice
(index.js lines 108-119): the 800-character slice of its argument. -/
def synthesizeEdwardVoiceInput (text : List Char) : List Char := text.take 800

/-- Text actually passed to the speech model by synthesizeVoice
(unnamed/part_002 lines 295-306): the argument itself, with no slice. -/
def synthesizeVoiceInput (text : List Char) : List Char := text

/-- Object key built by uploadAudioToSupabase (index.js lines 122-123):
the template audio/, owner id, dash, millisecond timestamp, .mp3. -/
def uploadAudioToSupabaseKey (userId : List Char) (ts : Nat) : List Char :=
  "audio/".toList ++ userId ++ "-".toList ++ (Nat.repr ts).toList ++ ".mp3".toList

/-- Object key built by the hardened uploadAudio (index.js lines 513-516):
as above plus a dash and the hex rendering of four random bytes, with the
.opus extension; the random hex is passed in as an oracle list. -/
def uploadAudioKeyHardened (userId : List Char) (ts : Nat) (hex : List Char) : List Char :=
  "audio/".toList ++ userId ++ "-".toList ++ (Nat.repr ts).toList ++ "-".toList ++ hex ++ ".opus".toList

/-- Persisted conversation turn (edward_messages / rachel_messages row).
Tables are append-only, so a table value is the list of rows in insertion
order and created_at is the monotone insertion timestamp. -/
structure Turn where
  user_id : Nat
  role : Role
  content : List Char
  created_at : Nat
deriving DecidableEq

/-- Result of the select issued by getRecentMessages: rows of the user,
ordered by created_at descending (the reverse of the insertion-ordered
table), limited. -/
def selectRecentDesc (table : List Turn) (uid : Nat) (limit : Nat) : List Turn :=
  ((table.filter (fun t => t.user_id == uid)).reverse).take limit

/-- Model of getRecentMessages (index.js lines 46-59, part_002 getHistory
lines 230-249): on a read error the empty list is returned, otherwise the
descending query result is reversed back into chronological order. -/
def getRecentMessages (table : List Turn) (uid : Nat) (limit : Nat)
    (readFails : Bool) : List Turn :=
  if readFails then [] else (selectRecentDesc table uid limit).reverse

/-- Fixed reply text of the empty-transcription branch of index.js. -/
def couldNotUnderstandMsg : List Char := "音声を認識できませんでした。もう一度お願いします。".toList

/-- Fixed apology text of the index.js handleEvent catch block. -/
def apologyMsg : List Char := "エラーが発生しました。".toList

/-- Effect trace of the text branch of index.js handleEvent (lines
184-211), given the inbound text and the raw generator output. -/
def edwardTextActs (msgText genOut : List Char) : List Act :=
  [Act.save Role.user (msgText.take 400),
   Act.readHistory,
   Act.genCall (msgText.take 400),
   Act.save Role.assistant (createEdwardReplyParse genOut).1,
   Act.save Role.assistant (createEdwardReplyParse genOut).2,
   Act.ttsCall (synthesizeEdwardVoiceInput (createEdwardReplyParse genOut).1),
   Act.uploadCall,
   Act.reply [Segment.text (createEdwardReplyParse genOut).1,
              Segment.text (createEdwardReplyParse genOut).2,
              Segment.audio]]

/-- Effect trace of the audio branch of index.js handleEvent (lines
214-253): an empty transcription short-circuits to one fixed text reply,
otherwise the pipeline mirrors the text branch. -/
def edwardAudioActs (api : Except Unit (Option (List Char))) (genOut : List Char) : List Act :=
  if transcribeAudio api = [] then
    [Act.fetchContent, Act.sttCall, Act.reply [Segment.text couldNotUnderstandMsg]]
  else
    [Act.fetchContent, Act.sttCall,
     Act.save Role.user (transcribeAudio api),
     Act.readHistory,
     Act.genCall (transcribeAudio api),
     Act.save Role.assistant (createEdwardReplyParse genOut).1,
     Act.save Role.assistant (createEdwardReplyParse genOut).2,
     Act.ttsCall (synthesizeEdwardVoiceInput (createEdwardReplyParse genOut).1),
     Act.uploadCall,
     Act.reply [Segment.text (createEdwardReplyParse genOut).1,
                Segment.text (createEdwardReplyParse genOut).2,
                Segment.audio]]

/-- Effect trace of the text branch of unnamed/part_000 handleEvent (lines
194-222): as the Edward trace but with the part_000 parser, and with the
empty japanese field replaced by a fixed fallback at reply assembly. -/
def rachelTextActs (msgText genOut : List Char) : List Act :=
  [Act.save Role.user (msgText.take 400),
   Act.readHistory,
   Act.genCall (msgText.take 400),
   Act.save Role.assistant (createRachelReplyParse genOut).1,
   Act.save Role.assistant (createRachelReplyParse genOut).2,
   Act.ttsCall ((createRachelReplyParse genOut).1.take 800),
   Act.uploadCall,
   Act.reply [Segment.text (createRachelReplyParse genOut).1,
              Segment.text (if (createRachelReplyParse genOut).2 = []
                            then rachelJpFallback
                            else (createRachelReplyParse genOut).2),
              Segment.audio]]

/-- Effect trace of the audio path of the unnamed/part_001 webhook handler
(lines 143-187): the transcript is used with no empty check, the reply
texts carry literal EN: and JP: prefixes, and only one assistant row is
persisted, after the reply. -/
def part001AudioActs (transcript genOut : List Char) : List Act :=
  [Act.fetchContent, Act.sttCall,
   Act.readHistory,
   Act.genCall transcript,
   Act.ttsCall ((strictParse genOut).1.take 800),
   Act.uploadCall,
   Act.reply [Segment.text ("EN: ".toList ++ (strictParse genOut).1),
              Segment.text ("JP: ".toList ++ (strictParse genOut).2),
              Segment.audio],
   Act.save Role.assistant
     ("EN: ".toList ++ (strictParse genOut).1 ++ '\n' :: "JP: ".toList ++ (strictParse genOut).2)]

/-- Reply payloads among a list of effects, in order. -/
def repliesOf (acts : List Act) : List (List Segment) :=
  acts.filterMap (fun a =>
    match a with
    | Act.reply segs => some segs
    | _ => none)

/-- Semantics of the try/catch around a straight-line handler body: when
the k-th awaited step of the body raises, the effects before it have
happened, the rest have not, and the catch block effects run. -/
def runWithFailure (tryActs : List Act) (failAt : Option Nat) (catchActs : List Act) : List Act :=
  match failAt with
  | none => tryActs
  | some k => tryActs.take k ++ catchActs

/-- History-store operations among the effects. -/
def isStoreOp (a : Act) : Bool :=
  match a with
  | Act.save _ _ => true
  | Act.readHistory => true
  | _ => false

/-- Test for the read effect. -/
def isReadAct (a : Act) : Bool :=
  match a with
  | Act.readHistory => true
  | _ => false

/-- Test for a write effect. -/
def isSaveAct (a : Act) : Bool :=
  match a with
  | Act.save _ _ => true
  | _ => false

/-- Does some history write occur strictly before the first history read. -/
def savesBeforeRead (acts : List Act) : Bool :=
  (acts.takeWhile (fun a => !(isReadAct a))).any isSaveAct

/-! Helper lemmas about the string machinery. -/

theorem straddleJp (x t : List Char) (h : jpTagL.isPrefixOf (x ++ '\n' :: t) = true) :
    jpTagL.isPrefixOf x = true := by
  match x with
  | [] => simp [jpTagL, List.isPrefixOf] at h
  | [c] => simp [jpTagL, List.isPrefixOf] at h
  | [c, d] => simp [jpTagL, List.isPrefixOf] at h
  | c :: d :: e :: xs =>
      simp only [List.cons_append, jpTagL, List.isPrefixOf, Bool.and_eq_true] at h ⊢
      exact ⟨h.1, h.2.1, h.2.2.1, trivial⟩

theorem not_prefix_drop (pat s : List Char) (hnil : pat.isPrefixOf [] = false)
    (h : containsSub pat s = false) : ∀ i, pat.isPrefixOf (s.drop i) = false := by
  induction s with
  | nil => intro i; simpa using hnil
  | cons c cs ih =>
      intro i
      simp only [containsSub, Bool.or_eq_false_iff] at h
      cases i with
      | zero => simpa using h.1
      | succ j => simpa [List.drop_succ_cons] using ih h.2 j

theorem containsSub_of_prefix_drop (pat s : List Char) (i : Nat)
    (h : pat.isPrefixOf (s.drop i) = true) : containsSub pat s = true := by
  induction s generalizing i with
  | nil => simpa [containsSub] using h
  | cons c cs ih =>
      cases i with
      | zero =>
          simp only [List.drop_zero] at h
          simp [containsSub, h]
      | succ j =>
          simp only [List.drop_succ_cons] at h
          simp [containsSub, ih j h]

theorem containsSub_of_containsSub_drop (pat s : List Char) (k : Nat)
    (h : containsSub pat (s.drop k) = true) : containsSub pat s = true := by
  induction s generalizing k with
  | nil => simpa using h
  | cons c cs ih =>
      cases k with
      | zero => simpa using h
      | succ j =>
          simp only [List.drop_succ_cons] at h
          simp [containsSub, ih j h]

theorem firstOcc_eq_some (pat s : List Char) (m : Nat)
    (hm : pat.isPrefixOf (s.drop m) = true)
    (hlt : ∀ i, i < m → pat.isPrefixOf (s.drop i) = false) :
    firstOcc pat s = some m := by
  induction s generalizing m with
  | nil =>
      cases m with
      | zero => simp only [List.drop_nil] at hm; simp [firstOcc, hm]
      | succ j =>
          have h0 := hlt 0 (Nat.succ_pos j)
          simp only [List.drop_nil] at hm h0
          rw [h0] at hm
          exact absurd hm (by simp)
  | cons c cs ih =>
      cases m with
      | zero =>
          simp only [List.drop_zero] at hm
          simp [firstOcc, hm]
      | succ j =>
          have h0 : pat.isPrefixOf (c :: cs) = false := by
            simpa using hlt 0 (Nat.succ_pos j)
          have ihj : firstOcc pat cs = some j :=
            ih j (by simpa [List.drop_succ_cons] using hm)
              (fun i hij => by
                simpa [List.drop_succ_cons] using hlt (i + 1) (Nat.succ_lt_succ hij))
          simp [firstOcc, h0, ihj]

theorem firstOcc_eq_none (pat s : List Char)
    (h : ∀ i, pat.isPrefixOf (s.drop i) = false) : firstOcc pat s = none := by
  induction s with
  | nil =>
      have h0 := h 0
      simp only [List.drop_nil] at h0
      simp [firstOcc, h0]
  | cons c cs ih =>
      have h0 : pat.isPrefixOf (c :: cs) = false := by simpa using h 0
      have hcs : firstOcc pat cs = none :=
        ih (fun i => by simpa [List.drop_succ_cons] using h (i + 1))
      simp [firstOcc, h0, hcs]

theorem drop_wsLen (s : List Char) : s.drop (wsLen s) = s.dropWhile isWs := by
  induction s with
  | nil => rfl
  | cons c cs ih =>
      by_cases hc : isWs c = true
      · simp [wsLen, List.takeWhile_cons, hc, List.dropWhile_cons] at ih ⊢
        exact ih
      · simp [wsLen, List.takeWhile_cons, hc, List.dropWhile_cons]

theorem dropWhile_ws_idem (s : List Char) :
    (s.dropWhile isWs).dropWhile isWs = s.dropWhile isWs := by
  induction s with
  | nil => rfl
  | cons c cs ih =>
      by_cases hc : isWs c = true
      · simpa [List.dropWhile_cons, hc] using ih
      · simp [List.dropWhile_cons, hc]

theorem trimL_dropWhile (s : List Char) : trimL (s.dropWhile isWs) = trimL s := by
  simp [trimL, dropWhile_ws_idem]

theorem rdropWs_append_ws (y : List Char) (c : Char) (hc : isWs c = true) :
    rdropWs (y ++ [c]) = rdropWs y := by
  simp [rdropWs, List.reverse_append, List.dropWhile_cons, hc]

theorem trimL_append_ws (x : List Char) (c : Char) (hc : isWs c = true) :
    trimL (x ++ [c]) = trimL x := by
  by_cases hx : x.dropWhile isWs = []
  · simp [trimL, List.dropWhile_append, hx, List.dropWhile_cons, hc, rdropWs]
  · simp [trimL, List.dropWhile_append, hx, rdropWs_append_ws _ _ hc]

theorem trimL_nil_of_allWs (a : List Char) (h : a.all isWs = true) : trimL a = [] := by
  have hd : a.dropWhile isWs = [] :=
    List.dropWhile_eq_nil_iff.mpr (by simpa [List.all_eq_true] using h)
  simp [trimL, hd, rdropWs]

theorem wsLen_le_length (a : List Char) : wsLen a ≤ a.length :=
  (List.takeWhile_prefix _).length_le

theorem wsLen_all_append (a tail : List Char) (h : a.all isWs = true) :
    wsLen (a ++ '\n' :: 'J' :: tail) = a.length + 1 := by
  have ha : List.takeWhile isWs a = a :=
    List.takeWhile_eq_self_iff.mpr (by simpa [List.all_eq_true] using h)
  unfold wsLen
  rw [List.takeWhile_append]
  simp [ha, List.takeWhile_cons, isWs]

theorem wsLen_not_all_append (a t : List Char) (h : ¬ a.all isWs = true) :
    wsLen (a ++ t) = wsLen a := by
  have hne : (List.takeWhile isWs a).length ≠ a.length := by
    intro hl
    have heq : List.takeWhile isWs a = a := (List.takeWhile_prefix _).eq_of_length hl
    exact h (by simpa [List.all_eq_true] using List.takeWhile_eq_self_iff.mp heq)
  unfold wsLen
  rw [List.takeWhile_append]
  simp [hne]

theorem enLoop_found (pat rest : List Char) (k c : Nat)
    (h : firstOcc pat (rest.drop k) = some c) :
    enLoop pat rest k = some ((rest.drop k).take c) := by
  cases k with
  | zero =>
      simp only [List.drop_zero] at h ⊢
      simp [enLoop, h]
  | succ j => simp [enLoop, h]

theorem enLoop_shift (pat rest : List Char) (k : Nat)
    (h : firstOcc pat (rest.drop (k + 1)) = none) :
    enLoop pat rest (k + 1) = enLoop pat rest k := by
  simp [enLoop, h]

theorem occ_at_main (a b : List Char) :
    nlJpL.isPrefixOf ((a ++ (nlJpL ++ b)).drop a.length) = true := by
  rw [List.drop_left]
  exact List.isPrefixOf_iff_prefix.mpr (List.prefix_append _ _)

theorem occ_before (a b : List Char) (hA : containsSub jpTagL a = false) :
    ∀ i, i < a.length → nlJpL.isPrefixOf ((a ++ (nlJpL ++ b)).drop i) = false := by
  intro i hi
  rw [Bool.eq_false_iff]
  intro h
  rw [List.drop_append_of_le_length (le_of_lt hi), List.drop_eq_getElem_cons hi] at h
  have h2 : jpTagL.isPrefixOf ((a.drop (i + 1)) ++ '\n' :: (jpTagL ++ b)) = true := by
    simp only [nlJpL, List.cons_append, List.isPrefixOf, Bool.and_eq_true,
      List.append_assoc] at h
    exact h.2
  have h3 := containsSub_of_prefix_drop jpTagL a (i + 1) (straddleJp _ _ h2)
  rw [hA] at h3
  exact Bool.false_ne_true h3

theorem occ_after (a b : List Char) (hB : containsSub jpTagL b = false) :
    ∀ j, nlJpL.isPrefixOf ((a ++ (nlJpL ++ b)).drop (a.length + (1 + j))) = false := by
  intro j
  rw [List.drop_append]
  have hb : (nlJpL ++ b).drop (1 + j) = (jpTagL ++ b).drop j := by
    simp [nlJpL, List.cons_append, Nat.add_comm 1 j]
  rw [hb]
  rcases j with _ | _ | _ | j
  · simp [jpTagL, nlJpL, List.isPrefixOf]
  · simp [jpTagL, nlJpL, List.isPrefixOf]
  · simp [jpTagL, nlJpL, List.isPrefixOf]
  · have hb2 : (jpTagL ++ b).drop (j + 3) = b.drop j := by
      have : j + 3 = jpTagL.length + j := by simp [jpTagL]; omega
      rw [this, List.drop_append]
    rw [hb2, Bool.eq_false_iff]
    intro h
    cases hdrop : b.drop j with
    | nil => rw [hdrop] at h; simp [nlJpL, jpTagL, List.isPrefixOf] at h
    | cons x xs =>
        rw [hdrop] at h
        simp only [nlJpL, List.isPrefixOf, Bool.and_eq_true] at h
        have hxs : xs = b.drop (j + 1) := by
          have : (b.drop j).drop 1 = b.drop (j + 1) := by
            rw [List.drop_drop]
          rw [hdrop] at this
          simpa using this
        have h3 := containsSub_of_prefix_drop jpTagL b (j + 1)
          (by rw [← hxs]; exact h.2)
        rw [hB] at h3
        exact Bool.false_ne_true h3

theorem enLoop_main (a b : List Char) (hA : containsSub jpTagL a = false)
    (hB : containsSub jpTagL b = false) :
    ∃ cap, enLoop nlJpL (a ++ (nlJpL ++ b)) (wsLen (a ++ (nlJpL ++ b))) = some cap ∧
      trimL cap = trimL a := by
  by_cases hws : a.all isWs = true
  · have hW : wsLen (a ++ (nlJpL ++ b)) = a.length + 1 := by
      have hshape : a ++ (nlJpL ++ b) = a ++ '\n' :: 'J' :: ('P' :: ':' :: b) := by
        simp [nlJpL, jpTagL]
      rw [hshape]
      exact wsLen_all_append a _ hws
    rw [hW]
    have hnone : firstOcc nlJpL ((a ++ (nlJpL ++ b)).drop (a.length + 1)) = none := by
      apply firstOcc_eq_none
      intro i
      rw [List.drop_drop]
      have harith : a.length + 1 + i = a.length + (1 + i) := by omega
      rw [harith]
      exact occ_after a b hB i
    rw [enLoop_shift _ _ _ hnone]
    have hfo : firstOcc nlJpL ((a ++ (nlJpL ++ b)).drop a.length) = some 0 :=
      firstOcc_eq_some _ _ 0 (by simp only [List.drop_zero]; exact occ_at_main a b)
        (fun i hi => absurd hi (Nat.not_lt_zero i))
    rw [enLoop_found _ _ _ _ hfo]
    exact ⟨[], by simp, (trimL_nil_of_allWs a hws).symm ▸ rfl⟩
  · have hW : wsLen (a ++ (nlJpL ++ b)) = wsLen a := wsLen_not_all_append a _ hws
    have hWle : wsLen a ≤ a.length := wsLen_le_length a
    rw [hW]
    have hfo : firstOcc nlJpL ((a ++ (nlJpL ++ b)).drop (wsLen a))
        = some (a.length - wsLen a) := by
      apply firstOcc_eq_some
      · rw [List.drop_drop]
        have harith : wsLen a + (a.length - wsLen a) = a.length := by omega
        rw [harith]
        exact occ_at_main a b
      · intro i hi
        rw [List.drop_drop]
        exact occ_before a b hA (wsLen a + i) (by omega)
    refine ⟨_, enLoop_found _ _ _ _ hfo, ?_⟩
    rw [List.drop_append_of_le_length hWle]
    have hlen : (a.drop (wsLen a)).length = a.length - wsLen a := by
      simp [List.length_drop]
    rw [List.take_left' hlen, drop_wsLen a]
    exact trimL_dropWhile a

theorem enScanStrict_main (a b : List Char) (hA : containsSub jpTagL a = false)
    (hB : containsSub jpTagL b = false) :
    ∃ cap, enScanStrict (enTagL ++ (a ++ (nlJpL ++ b))) = some cap ∧
      trimL cap = trimL a := by
  obtain ⟨cap, hloop, htrim⟩ := enLoop_main a b hA hB
  refine ⟨cap, ?_, htrim⟩
  show enScanStrict ('E' :: 'N' :: ':' :: (a ++ (nlJpL ++ b))) = some cap
  simp only [enScanStrict, enTagL, List.isPrefixOf, List.drop_succ_cons, List.drop_zero]
  simp [hloop]

theorem jpScan_append (a b : List Char) (hA : containsSub jpTagL a = false) :
    jpScan (a ++ (nlJpL ++ b)) = some (b.dropWhile isWs) := by
  induction a with
  | nil =>
      show jpScan ('\n' :: ('J' :: 'P' :: ':' :: b)) = some (b.dropWhile isWs)
      simp [jpScan, jpTagL, List.isPrefixOf]
  | cons c a' ih =>
      have hsplit : jpTagL.isPrefixOf (c :: a') = false ∧ containsSub jpTagL a' = false := by
        simpa [containsSub, Bool.or_eq_false_iff] using hA
      have h1 : jpTagL.isPrefixOf (c :: (a' ++ (nlJpL ++ b))) = false := by
        rw [Bool.eq_false_iff]
        intro h
        have h' : jpTagL.isPrefixOf ((c :: a') ++ '\n' :: (jpTagL ++ b)) = true := by
          simpa [nlJpL, List.cons_append, List.append_assoc] using h
        have h2 := straddleJp _ _ h'
        rw [hsplit.1] at h2
        exact Bool.false_ne_true h2
      show jpScan (c :: (a' ++ (nlJpL ++ b))) = some (b.dropWhile isWs)
      simp only [jpScan, h1, Bool.false_eq_true, if_false]
      exact ih hsplit.2

theorem jpScan_full (a b : List Char) (hA : containsSub jpTagL a = false) :
    jpScan (enTagL ++ (a ++ (nlJpL ++ b))) = some (b.dropWhile isWs) := by
  show jpScan ('E' :: 'N' :: ':' :: (a ++ (nlJpL ++ b))) = some (b.dropWhile isWs)
  have e1 : jpTagL.isPrefixOf ('E' :: 'N' :: ':' :: (a ++ (nlJpL ++ b))) = false := by
    simp [jpTagL, List.isPrefixOf]
  have e2 : jpTagL.isPrefixOf ('N' :: ':' :: (a ++ (nlJpL ++ b))) = false := by
    simp [jpTagL, List.isPrefixOf]
  have e3 : jpTagL.isPrefixOf (':' :: (a ++ (nlJpL ++ b))) = false := by
    simp [jpTagL, List.isPrefixOf]
  simp only [jpScan, e1, e2, e3, Bool.false_eq_true, if_false]
  exact jpScan_append a b hA

theorem enScanLoose_main (a b : List Char) (hA : containsSub jpTagL a = false) :
    ∃ cap, enScanLoose (enTagL ++ (a ++ (nlJpL ++ b))) = some cap ∧
      trimL cap = trimL a := by
  by_cases hws : a.all isWs = true
  · have hr : (a ++ (nlJpL ++ b)).dropWhile isWs = jpTagL ++ b := by
      have ha : a.dropWhile isWs = [] :=
        List.dropWhile_eq_nil_iff.mpr (by simpa [List.all_eq_true] using hws)
      rw [List.dropWhile_append]
      simp [ha, nlJpL, jpTagL, List.dropWhile_cons, isWs]
    have hfo : firstOcc jpTagL (jpTagL ++ b) = some 0 := by
      show firstOcc jpTagL ('J' :: ('P' :: ':' :: b)) = some 0
      have : jpTagL.isPrefixOf ('J' :: 'P' :: ':' :: b) = true := by
        simp [jpTagL, List.isPrefixOf]
      simp [firstOcc, this]
    refine ⟨[], ?_, (trimL_nil_of_allWs a hws).symm ▸ rfl⟩
    show enScanLoose ('E' :: 'N' :: ':' :: (a ++ (nlJpL ++ b))) = some []
    simp only [enScanLoose, enTagL, List.isPrefixOf, List.drop_succ_cons, List.drop_zero]
    simp only [List.drop, hr, hfo]
    simp
  · have hane : ¬ a.dropWhile isWs = [] := by
      intro hnil
      exact hws (by simpa [List.all_eq_true] using List.dropWhile_eq_nil_iff.mp hnil)
    have hr : (a ++ (nlJpL ++ b)).dropWhile isWs
        = a.dropWhile isWs ++ '\n' :: (jpTagL ++ b) := by
      rw [List.dropWhile_append]
      simp [hane, nlJpL, List.cons_append]
    have hfo : firstOcc jpTagL (a.dropWhile isWs ++ '\n' :: (jpTagL ++ b))
        = some ((a.dropWhile isWs).length + 1) := by
      apply firstOcc_eq_some
      · rw [List.drop_append]
        simp only [List.drop_succ_cons, List.drop_zero]
        exact List.isPrefixOf_iff_prefix.mpr (List.prefix_append _ _)
      · intro i hi
        rw [Bool.eq_false_iff]
        intro hpre
        have hile : i ≤ (a.dropWhile isWs).length := by omega
        rw [List.drop_append_of_le_length hile] at hpre
        have h1 := straddleJp _ _ hpre
        have h2 : containsSub jpTagL (a.dropWhile isWs) = true :=
          containsSub_of_prefix_drop _ _ _ h1
        rw [← drop_wsLen a] at h2
        have h3 := containsSub_of_containsSub_drop _ _ _ h2
        rw [hA] at h3
        exact Bool.false_ne_true h3
    refine ⟨(a.dropWhile isWs) ++ ['\n'], ?_, ?_⟩
    · show enScanLoose ('E' :: 'N' :: ':' :: (a ++ (nlJpL ++ b))) = _
      simp only [enScanLoose, enTagL, List.isPrefixOf, List.drop_succ_cons, List.drop_zero]
      simp only [List.drop, hr, hfo]
      have htake : (a.dropWhile isWs ++ '\n' :: (jpTagL ++ b)).take
          ((a.dropWhile isWs).length + 1) = a.dropWhile isWs ++ ['\n'] := by
        rw [List.take_append]
        simp
      simp [htake]
    · rw [trimL_append_ws _ '\n' (by simp [isWs])]
      exact trimL_dropWhile a

theorem jpScan_eq_none (s : List Char) (h : containsSub jpTagL s = false) :
    jpScan s = none := by
  induction s with
  | nil => rfl
  | cons c cs ih =>
      simp only [containsSub, Bool.or_eq_false_iff] at h
      simp only [jpScan, h.1, Bool.false_eq_true, if_false]
      exact ih h.2

theorem enScanStrict_eq_none (s : List Char) (h : containsSub enTagL s = false) :
    enScanStrict s = none := by
  induction s with
  | nil => rfl
  | cons c cs ih =>
      simp only [containsSub, Bool.or_eq_false_iff] at h
      simp only [enScanStrict, h.1, Bool.false_eq_true, if_false]
      exact ih h.2

theorem enScanLoose_eq_none (s : List Char) (h : containsSub enTagL s = false) :
    enScanLoose s = none := by
  induction s with
  | nil => rfl
  | cons c cs ih =>
      simp only [containsSub, Bool.or_eq_false_iff] at h
      simp only [enScanLoose, h.1, Bool.false_eq_true, if_false]
      exact ih h.2

/-! Claim theorems. -/

/-- C1, counterexample: the generator output JP:x newline EN:hello newline
JP:world contains an EN: tag and a later JP: tag, yet both cited parsers
return a japanese field that is the whole text after the FIRST JP:
occurrence, which contains the english field verbatim and differs from the
text after the later JP: tag, so the fields do leak into each other.  Also,
on a same-line output EN: Hi JP: X the index.js parser (whose english
pattern demands a newline before JP:) returns the whole text as english,
so the japanese text X leaks into the english field. -/
theorem c1_counterexample :
    (createEdwardReplyParse "JP:x\nEN:hello\nJP:world".toList).1 = "hello".toList ∧
    (createEdwardReplyParse "JP:x\nEN:hello\nJP:world".toList).2
      = "x\nEN:hello\nJP:world".toList ∧
    (createEdwardReplyParse "JP:x\nEN:hello\nJP:world".toList).2 ≠ "world".toList ∧
    containsSub "hello".toList
      (createEdwardReplyParse "JP:x\nEN:hello\nJP:world".toList).2 = true ∧
    createRachelReplyParse "JP:x\nEN:hello\nJP:world".toList
      = createEdwardReplyParse "JP:x\nEN:hello\nJP:world".toList ∧
    (createEdwardReplyParse "EN: Hi JP: X".toList).1 = "EN: Hi JP: X".toList ∧
    (createEdwardReplyParse "EN: Hi JP: X".toList).2 = "X".toList := by
  decide

/-- C1, amended: for generator outputs of the well-formed shape EN: tag,
then english text a, then a newline-JP: tag, then japanese text b, where
the literal JP: occurs in neither a nor b, both cited parsers split
exactly at the tag boundaries: english is a trimmed, japanese is b
trimmed, with no leaking of one field into the other. -/
theorem c1_amended_tag_split (a b : List Char)
    (hA : containsSub jpTagL a = false) (hB : containsSub jpTagL b = false) :
    createEdwardReplyParse (enTagL ++ (a ++ (nlJpL ++ b))) = (trimL a, trimL b) ∧
    createRachelReplyParse (enTagL ++ (a ++ (nlJpL ++ b))) = (trimL a, trimL b) := by
  obtain ⟨capS, hS, hSt⟩ := enScanStrict_main a b hA hB
  obtain ⟨capL, hL, hLt⟩ := enScanLoose_main a b hA
  have hjp := jpScan_full a b hA
  constructor
  · simp [createEdwardReplyParse, hS, hjp, hSt, trimL_dropWhile]
  · simp [createRachelReplyParse, hL, hjp, hLt, trimL_dropWhile]

/-- C1, witness: the amended split theorem evaluated on a concrete
well-formed generator output. -/
theorem c1_amended_tag_split_witness :
    containsSub jpTagL "Hello there.".toList = false ∧
    containsSub jpTagL "こんにちは。".toList = false ∧
    createEdwardReplyParse
        (enTagL ++ ("Hello there.".toList ++ (nlJpL ++ "こんにちは。".toList)))
      = (trimL "Hello there.".toList, trimL "こんにちは。".toList) :=
  ⟨by decide, by decide,
    (c1_amended_tag_split "Hello there.".toList "こんにちは。".toList
      (by decide) (by decide)).1⟩

/-- C2: for a chronologically ordered append-only table, getRecentMessages
returns at most limit turns, in non-decreasing created_at order, equal to
the reverse of the descending query it issues — which makes it exactly the
MOST RECENT turns of the user: the filtered table with all but its last
limit rows dropped — and returns the empty list when the underlying read
fails. -/
theorem c2_recent_messages (table : List Turn) (uid limit : Nat)
    (hchron : table.Pairwise (fun t u => t.created_at ≤ u.created_at)) :
    (∀ readFails, (getRecentMessages table uid limit readFails).length ≤ limit) ∧
    getRecentMessages table uid limit true = [] ∧
    (getRecentMessages table uid limit false).Pairwise
      (fun t u => t.created_at ≤ u.created_at) ∧
    getRecentMessages table uid limit false = (selectRecentDesc table uid limit).reverse ∧
    getRecentMessages table uid limit false
      = (table.filter (fun t => t.user_id == uid)).drop
          ((table.filter (fun t => t.user_id == uid)).length - limit) := by
  refine ⟨?_, rfl, ?_, rfl, ?_⟩
  · intro rf
    cases rf
    · simp only [getRecentMessages, selectRecentDesc, if_false, Bool.false_eq_true,
        List.length_reverse, List.length_take]
      omega
    · simp [getRecentMessages]
  · have h1 : (table.filter (fun t => t.user_id == uid)).Pairwise
        (fun t u => t.created_at ≤ u.created_at) := hchron.filter _
    have h2 : ((table.filter (fun t => t.user_id == uid)).reverse).Pairwise
        (fun t u => u.created_at ≤ t.created_at) := List.pairwise_reverse.mpr h1
    have h3 : (((table.filter (fun t => t.user_id == uid)).reverse).take limit).Pairwise
        (fun t u => u.created_at ≤ t.created_at) :=
      List.Pairwise.sublist (List.take_sublist _ _) h2
    exact List.pairwise_reverse.mpr h3
  · simp [getRecentMessages, selectRecentDesc, List.take_reverse, List.reverse_reverse]

/-- C2, witness: the theorem evaluated on a concrete two-row table. -/
theorem c2_recent_messages_witness :
    getRecentMessages
      [⟨0, Role.user, ['h'], 0⟩, ⟨0, Role.assistant, ['r'], 1⟩] 0 10 true = [] :=
  (c2_recent_messages
    [⟨0, Role.user, ['h'], 0⟩, ⟨0, Role.assistant, ['r'], 1⟩] 0 10 (by decide)).2.1

/-- C3, counterexample: in both cited handlers a history write (the user
turn) happens strictly before the first history read of the exchange, so
the read does not precede every write. -/
theorem c3_counterexample :
    savesBeforeRead (edwardTextActs "Hi".toList []) = true ∧
    savesBeforeRead (rachelTextActs "Hi".toList []) = true := by
  decide

/-- C3, amended: within every exchange the store operations happen in the
order user-turn write, history read, assistant-turn write, assistant-turn
write; so the read precedes the generation and both assistant writes, but
the user-turn write precedes the read. -/
theorem c3_amended (t g : List Char) :
    (edwardTextActs t g).filter isStoreOp =
      [Act.save Role.user (t.take 400), Act.readHistory,
       Act.save Role.assistant (createEdwardReplyParse g).1,
       Act.save Role.assistant (createEdwardReplyParse g).2] ∧
    (rachelTextActs t g).filter isStoreOp =
      [Act.save Role.user (t.take 400), Act.readHistory,
       Act.save Role.assistant (createRachelReplyParse g).1,
       Act.save Role.assistant (createRachelReplyParse g).2] :=
  ⟨rfl, rfl⟩

/-- C4, counterexample: on a tagless generator output the part_000 Rachel
parser returns an EMPTY english field, not the whole raw output. -/
theorem c4_counterexample :
    (createRachelReplyParse "Good morning, thanks for asking!".toList).1 = [] ∧
    trimL "Good morning, thanks for asking!".toList ≠ [] ∧
    containsSub enTagL "Good morning, thanks for asking!".toList = false ∧
    containsSub jpTagL "Good morning, thanks for asking!".toList = false := by
  decide

/-- C4, amended: on outputs containing neither tag, the index.js Edward
parser returns the whole raw output trimmed as english and the fixed
fallback as japanese, while the part_000 Rachel parser returns an empty
english and empty japanese, with the fixed fallback substituted for the
japanese field at reply assembly; the Rachel english segment goes out
empty. -/
theorem c4_amended (t s : List Char) (hE : containsSub enTagL s = false)
    (hJ : containsSub jpTagL s = false) :
    createEdwardReplyParse s = (trimL s, edwardJpFallback) ∧
    createRachelReplyParse s = ([], []) ∧
    repliesOf (edwardTextActs t s)
      = [[Segment.text (trimL s), Segment.text edwardJpFallback, Segment.audio]] ∧
    repliesOf (rachelTextActs t s)
      = [[Segment.text [], Segment.text rachelJpFallback, Segment.audio]] := by
  have h1 := enScanStrict_eq_none s hE
  have h2 := enScanLoose_eq_none s hE
  have h3 := jpScan_eq_none s hJ
  have hep : createEdwardReplyParse s = (trimL s, edwardJpFallback) := by
    simp [createEdwardReplyParse, h1, h3]
  have hrp : createRachelReplyParse s = ([], []) := by
    simp [createRachelReplyParse, h2, h3]
  refine ⟨hep, hrp, ?_, ?_⟩
  · simp [edwardTextActs, repliesOf, hep]
  · simp [rachelTextActs, repliesOf, hrp]

/-- C4, witness: the amended theorem evaluated on a concrete tagless
output. -/
theorem c4_amended_witness :
    createEdwardReplyParse "Good stuff!".toList
      = (trimL "Good stuff!".toList, edwardJpFallback) ∧
    createRachelReplyParse "Good stuff!".toList = ([], []) :=
  ⟨(c4_amended ['h'] "Good stuff!".toList (by decide) (by decide)).1,
   (c4_amended ['h'] "Good stuff!".toList (by decide) (by decide)).2.1⟩

/-- C5, counterexample: a generator output with a JP: tag followed by
nothing parses to an empty japanese field, and the index.js Edward
handler sends that empty string as a reply segment with no fallback
substitution. -/
theorem c5_counterexample :
    (createEdwardReplyParse "EN: Hi\nJP:".toList).2 = [] ∧
    Act.reply [Segment.text "Hi".toList, Segment.text [], Segment.audio]
      ∈ edwardTextActs "y".toList "EN: Hi\nJP:".toList := by
  decide

/-- C5, amended: the part_000 Rachel handler never sends an empty japanese
segment, substituting its fixed fallback at reply assembly; the index.js
Edward parser substitutes its fixed fallback only when the output has no
JP: occurrence at all, and an empty capture after a present JP: tag is
sent out empty. -/
theorem c5_amended :
    (∀ t g, ∃ e j, repliesOf (rachelTextActs t g)
        = [[Segment.text e, Segment.text j, Segment.audio]] ∧ j ≠ []) ∧
    (∀ s, containsSub jpTagL s = false →
      (createEdwardReplyParse s).2 = edwardJpFallback) ∧
    edwardJpFallback ≠ [] := by
  refine ⟨?_, ?_, by decide⟩
  · intro t g
    refine ⟨(createRachelReplyParse g).1,
      if (createRachelReplyParse g).2 = [] then rachelJpFallback
        else (createRachelReplyParse g).2, ?_, ?_⟩
    · simp [rachelTextActs, repliesOf]
    · split_ifs with h
      · decide
      · exact h
  · intro s hs
    simp [createEdwardReplyParse, jpScan_eq_none s hs]

/-- C5, witness: the amended theorem evaluated at concrete inputs. -/
theorem c5_amended_witness :
    (∃ e j, repliesOf (rachelTextActs ['h'] [])
      = [[Segment.text e, Segment.text j, Segment.audio]] ∧ j ≠ []) ∧
    (createEdwardReplyParse ['x']).2 = edwardJpFallback :=
  ⟨c5_amended.1 ['h'] [], c5_amended.2.1 ['x'] (by decide)⟩

/-- C6, counterexample: the part_001 webhook handler has no empty
transcript check: on an empty transcription it still calls the generator,
the speech model and the uploader, persists an assistant turn, and never
sends the fixed could-not-understand reply. -/
theorem c6_counterexample :
    Act.genCall [] ∈ part001AudioActs [] [] ∧
    Act.ttsCall [] ∈ part001AudioActs [] [] ∧
    Act.uploadCall ∈ part001AudioActs [] [] ∧
    Act.save Role.assistant "EN: \nJP: ".toList ∈ part001AudioActs [] [] ∧
    repliesOf (part001AudioActs [] []) ≠ [[Segment.text couldNotUnderstandMsg]] := by
  decide

/-- C6, amended: the index.js Edward handler behaves as the claim states:
an empty transcription short-circuits to exactly one fixed
could-not-understand reply with no generation, synthesis, upload or
persistence; the part_001 webhook variant lacks this branch entirely. -/
theorem c6_amended (api : Except Unit (Option (List Char))) (g : List Char)
    (h : transcribeAudio api = []) :
    edwardAudioActs api g =
      [Act.fetchContent, Act.sttCall, Act.reply [Segment.text couldNotUnderstandMsg]] ∧
    (∀ u, Act.genCall u ∉ edwardAudioActs api g) ∧
    (∀ s, Act.ttsCall s ∉ edwardAudioActs api g) ∧
    Act.uploadCall ∉ edwardAudioActs api g ∧
    (∀ r c, Act.save r c ∉ edwardAudioActs api g) ∧
    repliesOf (edwardAudioActs api g) = [[Segment.text couldNotUnderstandMsg]] := by
  have he : edwardAudioActs api g =
      [Act.fetchContent, Act.sttCall, Act.reply [Segment.text couldNotUnderstandMsg]] := by
    simp [edwardAudioActs, h]
  rw [he]
  refine ⟨rfl, ?_, ?_, ?_, ?_, rfl⟩ <;> simp [repliesOf]

/-- C6, witness: the amended theorem at a failing speech-to-text call. -/
theorem c6_amended_witness :
    edwardAudioActs (Except.error ()) [] =
      [Act.fetchContent, Act.sttCall, Act.reply [Segment.text couldNotUnderstandMsg]] :=
  (c6_amended (Except.error ()) [] rfl).1

/-- C7, counterexample: the part_002 synthesizeVoice passes its whole
argument to the speech model; on an 801-character input this is not the
800-character prefix. -/
theorem c7_counterexample :
    synthesizeVoiceInput (List.replicate 801 'a') ≠ (List.replicate 801 'a').take 800 := by
  intro h
  have hl := congrArg List.length h
  simp only [synthesizeVoiceInput, List.length_take, List.length_replicate] at hl
  omega

/-- C7, amended: the index.js Edward synthesizer passes exactly the
800-character prefix and this truncation is idempotent, while the
part_002 synthesizeVoice passes the text unchanged. -/
theorem c7_amended (t : List Char) :
    synthesizeEdwardVoiceInput t = t.take 800 ∧
    synthesizeEdwardVoiceInput (synthesizeEdwardVoiceInput t) = synthesizeEdwardVoiceInput t ∧
    synthesizeVoiceInput t = t := by
  refine ⟨rfl, ?_, rfl⟩
  simp [synthesizeEdwardVoiceInput, List.take_take]

/-- C8: uploads from distinct owners at the same millisecond always get
distinct object keys, in the simple key scheme and in the hardened
random-suffix scheme (for equal-length random suffixes, as produced by
the fixed four-byte hex rendering). -/
theorem c8_upload_keys (u1 u2 : List Char) (ts : Nat) (r1 r2 : List Char)
    (hu : u1 ≠ u2) (hr : r1.length = r2.length) :
    uploadAudioToSupabaseKey u1 ts ≠ uploadAudioToSupabaseKey u2 ts ∧
    uploadAudioKeyHardened u1 ts r1 ≠ uploadAudioKeyHardened u2 ts r2 := by
  constructor
  · intro h
    unfold uploadAudioToSupabaseKey at h
    have h1 := List.append_cancel_right h
    have h2 := List.append_cancel_right h1
    have h3 := List.append_cancel_right h2
    exact hu (List.append_cancel_left h3)
  · intro h
    unfold uploadAudioKeyHardened at h
    have h1 := List.append_cancel_right h
    have h2 := (List.append_inj' h1 hr).1
    have h3 := List.append_cancel_right h2
    have h4 := List.append_cancel_right h3
    have h5 := List.append_cancel_right h4
    exact hu (List.append_cancel_left h5)

/-- C8, witness: distinct single-character owners at millisecond zero. -/
theorem c8_upload_keys_witness :
    uploadAudioToSupabaseKey ['a'] 0 ≠ uploadAudioToSupabaseKey ['b'] 0 :=
  (c8_upload_keys ['a'] ['b'] 0 "deadbeef".toList "0a0b0c0d".toList
    (by decide) (by decide)).1

/-- C9: whichever awaited step of the index.js per-event handler body
raises, the catch block yields a trace whose outbound replies are exactly
one fixed apology text, for both the text branch and the audio branch, so
no caught failure leaves the event unanswered. -/
theorem c9_catch_apology (t g : List Char) (k : Nat)
    (api : Except Unit (Option (List Char))) :
    (k < (edwardTextActs t g).length →
      repliesOf (runWithFailure (edwardTextActs t g) (some k)
        [Act.reply [Segment.text apologyMsg]]) = [[Segment.text apologyMsg]]) ∧
    (k < (edwardAudioActs api g).length →
      repliesOf (runWithFailure (edwardAudioActs api g) (some k)
        [Act.reply [Segment.text apologyMsg]]) = [[Segment.text apologyMsg]]) := by
  constructor
  · intro hk
    have hlen : (edwardTextActs t g).length = 8 := rfl
    rw [hlen] at hk
    interval_cases k <;> simp [edwardTextActs, runWithFailure, repliesOf]
  · intro hk
    by_cases hstt : transcribeAudio api = []
    · have he : edwardAudioActs api g =
          [Act.fetchContent, Act.sttCall,
           Act.reply [Segment.text couldNotUnderstandMsg]] := by
        simp [edwardAudioActs, hstt]
      rw [he] at hk ⊢
      simp only [List.length_cons, List.length_nil] at hk
      interval_cases k <;> simp [runWithFailure, repliesOf]
    · have he : edwardAudioActs api g =
          [Act.fetchContent, Act.sttCall,
           Act.save Role.user (transcribeAudio api),
           Act.readHistory,
           Act.genCall (transcribeAudio api),
           Act.save Role.assistant (createEdwardReplyParse g).1,
           Act.save Role.assistant (createEdwardReplyParse g).2,
           Act.ttsCall (synthesizeEdwardVoiceInput (createEdwardReplyParse g).1),
           Act.uploadCall,
           Act.reply [Segment.text (createEdwardReplyParse g).1,
                      Segment.text (createEdwardReplyParse g).2,
                      Segment.audio]] := by
        simp [edwardAudioActs, hstt]
      rw [he] at hk ⊢
      simp only [List.length_cons, List.length_nil] at hk
      interval_cases k <;> simp [runWithFailure, repliesOf]

/-- C9, witness: a failure at the very first awaited step of the text
branch produces exactly the apology reply. -/
theorem c9_catch_apology_witness :
    repliesOf (runWithFailure (edwardTextActs ['h'] []) (some 0)
      [Act.reply [Segment.text apologyMsg]]) = [[Segment.text apologyMsg]] :=
  (c9_catch_apology ['h'] [] 0 (Except.error ())).1 (by decide)

/-- C10: transcribeAudio is total by construction (it returns a plain
list, never propagating its oracle failure); a raised upstream error and
an absent transcript both map to the empty string, and on that empty
string the audio branch takes the could-not-understand reply, not the
generic apology. -/
theorem c10_transcribe_total (t g : List Char) :
    transcribeAudio (Except.error ()) = [] ∧
    transcribeAudio (Except.ok none) = [] ∧
    transcribeAudio (Except.ok (some t)) = t ∧
    edwardAudioActs (Except.error ()) g =
      [Act.fetchContent, Act.sttCall, Act.reply [Segment.text couldNotUnderstandMsg]] ∧
    repliesOf (edwardAudioActs (Except.error ()) g)
      = [[Segment.text couldNotUnderstandMsg]] ∧
    Act.reply [Segment.text apologyMsg] ∉ edwardAudioActs (Except.error ()) g := by
  refine ⟨rfl, rfl, rfl, rfl, rfl, ?_⟩
  simp [edwardAudioActs, transcribeAudio, repliesOf, couldNotUnderstandMsg, apologyMsg]

end EnjaTalk
